import Mathlib

/-!
Verification of the real-time chat scripts (chat view, room list, room members).

The development shallowly embeds the client logic of `src/js/chat.js`,
`src/js/room_members.js` and the room-list / room-creation scripts: message
records, backward pagination (`fetchMessages`), the live-tail snapshot handler
(`watchNewMessages`), the rendered-message container, room creation with its
membership batch (`createRoom`), the member-removal guard
(`attemptRemoveMember`), message sending (`sendMessage` and the send-button
state), unread counting (`loadRoomAdditionalData`), typing status
(`listenForTypingStatus` and the debounce in `onInputChange`) and HTML escaping
(`escapeHtml` / `createMessageDiv`).

Firestore collections are modelled as lists; a per-room message history is kept
as the list of its messages in ascending `createdAt` order (the `orderBy`
index), so an `orderBy("createdAt", "desc")` query is the reverse of that list.
Server timestamps are natural numbers.  Document snapshots delivered to the
client may lack `createdAt` (a pending server timestamp), hence the field is an
`Option`.
-/

namespace RTChat

/-- A message document of `chatrooms/{roomId}/messages`, as the client sees it
(`createdAt` is `none` while a server timestamp is pending). -/
structure Msg where
  id : String
  senderId : String
  createdAt : Option Nat
  text : String
  messageType : String
  imageUrl : String
deriving DecidableEq

/-- The timestamp key used by ordered queries.  Queries that order or filter on
`createdAt` only ever touch documents whose field is present (Firestore's
`orderBy` excludes documents missing the field), so the default is never
relevant in those contexts. -/
def Msg.ts (m : Msg) : Nat := m.createdAt.getD 0

/-- The spec's per-room invariant: `createdAt` strictly increases with insertion
order (server-assigned, monotonic).  The authoritative history is the ascending
list. -/
abbrev SortedByCreatedAt (l : List Msg) : Prop :=
  l.Pairwise (fun a b => a.ts < b.ts)

/-- Page size of the paginated fetch (`const PAGE_SIZE = 20`, chat.js:37). -/
def PAGE_SIZE : Nat := 20

/-- The document sequence addressed by `fetchMessages`' query before the
`limit` clause (chat.js:210-212): `orderBy("createdAt", "desc")`, optionally
`startAfter(lastVisibleMsg)`.  `startAfter` on a descending `createdAt`
ordering returns the documents strictly older than the cursor document
(timestamps are strictly monotone per room, so no tie-breaking on document ids
arises). -/
def fetchQueryBase (hist : List Msg) (lastVisible : Option Msg) : List Msg :=
  match lastVisible with
  | none => hist.reverse
  | some m => hist.reverse.filter (fun x => decide (x.ts < m.ts))

/-- The full Firestore query built by `fetchMessages` (chat.js:210-212),
including `limit(n)` with `n = PAGE_SIZE`. -/
def fetchQuery (hist : List Msg) (lastVisible : Option Msg) (n : Nat) : List Msg :=
  (fetchQueryBase hist lastVisible).take n

/-- One call of `fetchMessages` (chat.js:205-232): run the query; if the
snapshot is empty stop, otherwise present the page oldest-first
(`messages.reverse()`) and remember the last snapshot document (the oldest of
the page) as the next cursor. -/
def fetchStep (hist : List Msg) (lastVisible : Option Msg) (n : Nat) :
    Option (List Msg × Msg) :=
  let snapshotDocs := fetchQuery hist lastVisible n
  match snapshotDocs.getLast? with
  | none => none
  | some lastDoc => some (snapshotDocs.reverse, lastDoc)

/-- Repeated `fetchMessages` calls against a fixed history, collecting the
pages presented to `prependMessages`, until an empty snapshot.  The fuel bounds
the number of calls; `history.length + 1` calls always suffice. -/
def fetchPagesAux (hist : List Msg) (n : Nat) : Nat → Option Msg → List (List Msg)
  | 0, _ => []
  | Nat.succ fuel, lastVisible =>
    match fetchStep hist lastVisible n with
    | none => []
    | some (page, lastDoc) => page :: fetchPagesAux hist n fuel (some lastDoc)

/-- All pages of the backward pagination, first call with no cursor. -/
def fetchPages (hist : List Msg) (n : Nat) : List (List Msg) :=
  fetchPagesAux hist n (hist.length + 1) none

/-! ## The rendered message container -/

/-- The ids of the rendered messages, in container (DOM) order. -/
def ids (r : List Msg) : List String := r.map (·.id)

/-- `renderedMessages.has(msg.id)`: whether a message with this id is rendered. -/
def hasMsg (r : List Msg) (i : String) : Bool := r.any (fun m => m.id == i)

/-- `prependMessages` (chat.js:234-253).  For each message of the page: skip it
when already rendered or when `createdAt` is missing, otherwise create its div
and — despite the function's name — append it to the container
(`messagesContainer.appendChild`).  Date separators are purely presentational
and not modelled. -/
def prependMessages (r : List Msg) (msgs : List Msg) : List Msg :=
  msgs.foldl
    (fun acc msg =>
      if hasMsg acc msg.id || msg.createdAt.isNone then acc else acc ++ [msg])
    r

/-- One `added`/`modified` document change handled by `watchNewMessages`
(chat.js:259-304): messages without `createdAt` are ignored; an already
rendered id has its element's content rewritten in place; a new id is appended
to the container. -/
def applyChange (r : List Msg) (msg : Msg) : List Msg :=
  if msg.createdAt.isNone then r
  else if hasMsg r msg.id then
    r.map (fun m => if m.id == msg.id then msg else m)
  else r ++ [msg]

/-- An event reaching the rendered container: a completed pagination fetch
(a page handed to `prependMessages`) or a live-tail document change. -/
inductive MergeEvent
  | page : List Msg → MergeEvent
  | live : Msg → MergeEvent

/-- Apply one merge event to the container. -/
def applyEvent (r : List Msg) : MergeEvent → List Msg
  | MergeEvent.page msgs => prependMessages r msgs
  | MergeEvent.live msg => applyChange r msg

/-- Run a whole interleaving of page completions and live deliveries against an
initially empty container. -/
def runEvents (evs : List MergeEvent) : List Msg := evs.foldl applyEvent []

/-- The ids delivered by a sequence of merge events, counting only messages
that carry a timestamp (the handlers drop the others). -/
def deliveredIds : List MergeEvent → List String
  | [] => []
  | MergeEvent.page msgs :: rest =>
      (msgs.filter (fun m => m.createdAt.isSome)).map (·.id) ++ deliveredIds rest
  | MergeEvent.live m :: rest =>
      (if m.createdAt.isSome then [m.id] else []) ++ deliveredIds rest

/-- The first page rendered on load: the newest `PAGE_SIZE` messages, presented
oldest-first (chat.js:210-229). -/
def firstPage (hist : List Msg) : List Msg := (fetchQuery hist none PAGE_SIZE).reverse

/-- Modelled from the spec: the Notification/Subscription Dispatcher
(Firestore `onSnapshot`, not part of this repository) first delivers the full
current matching state of the `watchNewMessages` query — the whole room ordered
by `createdAt` ascending, chat.js:257 — as `added` changes in query order.
The authoritative history is already kept in ascending order. -/
def watchInitialAdds (hist : List Msg) : List Msg := hist

/-- Modelled from the spec: the complete delivery sequence of the live-tail
subscription — the initial snapshot (the room's history at subscription start,
in query order) followed by each later message in insertion order (§4.6 of the
spec: per-stream monotonic delivery). -/
def watchDeliveries (histAtStart later : List Msg) : List Msg := histAtStart ++ later

/-! ## Generic keyed-document helpers (Firestore documents keyed by id) -/

/-- `setDoc` on a keyed collection: replace the document when the key exists,
otherwise add it. -/
def upsert {α : Type} (l : List (String × α)) (k : String) (v : α) : List (String × α) :=
  if l.any (fun p => p.1 == k) then l.map (fun p => if p.1 == k then (k, v) else p)
  else l ++ [(k, v)]

/-- Look a document up by key (`collection.get(key)` / `find`). -/
def lookupKey {α : Type} (l : List (String × α)) (k : String) : Option α :=
  (l.find? (fun p => p.1 == k)).map Prod.snd

/-! ## Rooms and memberships -/

/-- A member document of `chatrooms/{roomId}/members/{uid}`. -/
structure MemberDoc where
  role : String
  joinedAt : Nat
deriving DecidableEq

/-- A room's membership collection, keyed by user id (snapshot keys are
Firestore document ids, hence unique). -/
abbrev Members := List (String × MemberDoc)

/-- The room document written by `createRoom`. -/
structure RoomDoc where
  title : String
  roomType : String
  createdBy : String
  createdAt : Nat
deriving DecidableEq

/-- The part of the store a single `createRoom` call touches: the new room
document and its members subcollection. -/
structure RoomStore where
  room : Option RoomDoc
  members : Members
deriving DecidableEq

/-- A write queued in a `writeBatch`. -/
inductive BatchWrite
  | setRoom : RoomDoc → BatchWrite
  | setMember : String → MemberDoc → BatchWrite
deriving DecidableEq

/-- Apply one queued write. -/
def applyWrite (st : RoomStore) : BatchWrite → RoomStore
  | BatchWrite.setRoom rd => ⟨some rd, st.members⟩
  | BatchWrite.setMember uid d => ⟨st.room, upsert st.members uid d⟩

/-- `batch.commit()`: apply every queued write of the single batch. -/
def commitBatch (st : RoomStore) (b : List BatchWrite) : RoomStore :=
  b.foldl applyWrite st

/-- The member document `createRoom` writes for `uid`
(chat.js:1013-1016): `role: uid === currentUserId ? "admin" : "member"`. -/
def memberDocFor (currentUserId : String) (t : Nat) (uid : String) : MemberDoc :=
  ⟨if uid == currentUserId then "admin" else "member", t⟩

/-- The batch queued by `createRoom` (chat.js:998-1028): the room document plus
one member document per element of `memberIds`, role `admin` exactly for the
current user. -/
def createRoomBatch (title currentUserId : String) (memberIds : List String)
    (t : Nat) : List BatchWrite :=
  BatchWrite.setRoom ⟨title, "group", currentUserId, t⟩ ::
    memberIds.map (fun uid => BatchWrite.setMember uid (memberDocFor currentUserId t uid))

/-- `createRoom` against a fresh room id: commit the batch on the empty store. -/
def createRoom (title currentUserId : String) (memberIds : List String)
    (t : Nat) : RoomStore :=
  commitBatch ⟨none, []⟩ (createRoomBatch title currentUserId memberIds t)

/-- The `roomAdmins` set maintained by the members listener
(room_members.js:85-102): the uids whose member document has role `admin`. -/
def roomAdmins (ms : Members) : List String :=
  (ms.filter (fun p => p.2.role == "admin")).map Prod.fst

/-- `isCurrentUserAdmin = roomAdmins.has(currentUserId)` (room_members.js:96). -/
def isCurrentUserAdmin (ms : Members) (u : String) : Bool :=
  (roomAdmins ms).contains u

/-- The role recorded for a user, if any. -/
def memberRole (ms : Members) (uid : String) : Option String :=
  (lookupKey ms uid).map MemberDoc.role

/-- The last-admin guard of `attemptRemoveMember` (room_members.js:157):
`membersData.get(uid).role === "admin" && roomAdmins.size <= 1`. -/
def lastAdminGuard (ms : Members) (uid : String) : Bool :=
  (memberRole ms uid == some "admin") && decide ((roomAdmins ms).length ≤ 1)

/-- `attemptRemoveMember` (room_members.js:152-170): refuse when the caller is
not an admin, the target is not a member, the last-admin guard fires, or the
confirmation dialog is declined; otherwise delete the member document. -/
def attemptRemoveMember (ms : Members) (currentUserId uid : String)
    (confirmed : Bool) : Members :=
  if !(isCurrentUserAdmin ms currentUserId) then ms
  else if !(ms.any (fun p => p.1 == uid)) then ms
  else if lastAdminGuard ms uid then ms
  else if !confirmed then ms
  else ms.filter (fun p => !(p.1 == uid))

/-- `addMember` (room_members.js:206-222): refuse when already a member or when
the caller is not an admin; otherwise write a member document with role
`member`. -/
def addMember (ms : Members) (currentUserId uid : String) (t : Nat) : Members :=
  if ms.any (fun p => p.1 == uid) then ms
  else if !(isCurrentUserAdmin ms currentUserId) then ms
  else upsert ms uid ⟨"member", t⟩

/-- The membership states of a room reachable through the operations the
scripts implement: creation (chat.js:998-1028), adding a member and the
guarded removal (room_members.js). -/
inductive ReachableMembers : Members → Prop
  | created (title currentUserId : String) (memberIds : List String) (t : Nat) :
      ReachableMembers (createRoom title currentUserId memberIds t).members
  | added (ms : Members) (currentUserId uid : String) (t : Nat) :
      ReachableMembers ms → ReachableMembers (addMember ms currentUserId uid t)
  | removed (ms : Members) (currentUserId uid : String) (c : Bool) :
      ReachableMembers ms → ReachableMembers (attemptRemoveMember ms currentUserId uid c)

/-! ## Sending messages -/

/-- The whitespace stripped by JavaScript's `String.prototype.trim` (restricted
to the ASCII whitespace occurring in chat input). -/
def isJsWhitespace (c : Char) : Bool :=
  c == ' ' || c == '\t' || c == '\n' || c == '\r'

/-- `inputField.value.trim()`. -/
def jsTrim (s : String) : String :=
  String.mk (((s.data.dropWhile isJsWhitespace).reverse.dropWhile isJsWhitespace).reverse)

/-- The client state `sendMessage` reads and writes: the room's message
collection, the input field and the `isSending` reentrancy flag. -/
structure SendState where
  messages : List Msg
  inputValue : String
  isSending : Bool
deriving DecidableEq

/-- `sendMessage` (chat.js:338-361), success path: return unchanged when the
trimmed text is empty or a send is in flight; otherwise `addDoc` a TEXT message
(with the server-assigned id and timestamp) and clear the input.  The `finally`
block resets `isSending`. -/
def sendMessage (st : SendState) (senderId newId : String) (now : Nat) : SendState :=
  if (jsTrim st.inputValue).isEmpty || st.isSending then st
  else ⟨st.messages ++ [⟨newId, senderId, some now, jsTrim st.inputValue, "TEXT", ""⟩],
    "", false⟩

/-- `updateSendButtonState` (chat.js:415-418): the send button is disabled when
the trimmed text is empty, longer than 300 characters, or a send is in
flight. -/
def sendButtonDisabled (inputValue : String) (isSending : Bool) : Bool :=
  (jsTrim inputValue).isEmpty || decide ((jsTrim inputValue).length > 300) || isSending

/-- A 301-character text, used to exercise the length validation. -/
def longText : String := String.mk (List.replicate 301 'a')

/-! ## Unread counts -/

/-- The read-marker document `reads/{uid}_{roomId}`; the `lastReadTimestamp`
field can be absent. -/
structure ReadDoc where
  lastReadTimestamp : Option Nat
deriving DecidableEq

/-- The unread query of `loadRoomAdditionalData` (chat.js:791-796):
`where("createdAt", ">", lastReadTimestamp)` over the room's messages. -/
def unreadQuery (msgs : List Msg) (t : Nat) : List Msg :=
  msgs.filter (fun m => decide (t < m.ts))

/-- The unread count computed by `loadRoomAdditionalData` (chat.js:785-807):
zero unless the read document exists and carries a timestamp, otherwise the
size of the unread query's snapshot. -/
def computeUnreadCount (msgs : List Msg) (readDoc : Option ReadDoc) : Nat :=
  match readDoc with
  | none => 0
  | some rd =>
    match rd.lastReadTimestamp with
    | none => 0
    | some t => (unreadQuery msgs t).length

/-! ## Typing status -/

/-- A typing document `typing/{roomId}/users/{uid}`. -/
structure TypingDoc where
  isTyping : Bool
  updatedAt : Nat
deriving DecidableEq

/-- The typing collection of a room, keyed by user id. -/
abbrev TypingSnap := List (String × TypingDoc)

/-- The users shown by `listenForTypingStatus` (chat.js:383-403): every
document other than the current user's whose `isTyping` flag is set.  The
reader never consults `updatedAt` or the current time. -/
def typingUsers (snap : TypingSnap) (currentUserId : String) : List String :=
  (snap.filter (fun p => p.1 != currentUserId && p.2.isTyping)).map Prod.fst

/-- The quiet period after which `onInputChange` clears the typing flag
(chat.js:335: `setTimeout(() => sendTypingStatus(false), 2000)`). -/
def typingClearDelayMs : Nat := 2000

/-- The instant at which the timer armed by `onInputChange` at `now` writes
`isTyping = false` (chat.js:331-336). -/
def typingClearFireAt (now : Nat) : Nat := now + typingClearDelayMs

/-! ## HTML escaping and message rendering -/

/-- The per-character expansion of `escapeHtml`'s regex replacement
(chat.js:164-169): each of the five metacharacters becomes its entity, every
other character stands unchanged. -/
def escapeChar (c : Char) : List Char :=
  if c = '&' then "&amp;".data
  else if c = '<' then "&lt;".data
  else if c = '>' then "&gt;".data
  else if c = Char.ofNat 34 then "&quot;".data
  else if c = Char.ofNat 39 then "&#39;".data
  else [c]

/-- `escapeHtml` (chat.js:164-169): the empty string stays empty (`!text`),
otherwise the global regex replace rewrites each metacharacter. -/
def escapeHtml (s : String) : String :=
  if s.isEmpty then "" else String.mk (List.flatten (s.data.map escapeChar))

/-- The content markup built by `createMessageDiv` (chat.js:148-153): an `img`
tag with the raw url for image messages, else a paragraph with the escaped
text. -/
def contentHtml (m : Msg) : String :=
  if m.messageType == "IMAGE" && !m.imageUrl.isEmpty then
    "<img src=\"" ++ m.imageUrl ++ "\" alt=\"Image message\" class=\"chat-image\" />"
  else "<p>" ++ escapeHtml m.text ++ "</p>"

/-- `renderedMessages.get(id)`, observing the rendered entry for an id. -/
def findById (r : List Msg) (i : String) : Option Msg :=
  r.find? (fun m => m.id == i)

/-! ## Concrete histories used by witnesses and counterexamples -/

/-- A rendered text message. -/
def msgA : Msg := ⟨"a", "u", some 1, "hi", "TEXT", ""⟩

/-- A later delivery of the same message id with edited content (the source's
`modified` case). -/
def msgA2 : Msg := ⟨"a", "u", some 1, "edited", "TEXT", ""⟩

/-- A second message, newer than `msgA`. -/
def msgB : Msg := ⟨"b", "v", some 2, "yo", "TEXT", ""⟩

/-- A two-member room with a single admin. -/
def msTwo : Members := [("a", ⟨"admin", 0⟩), ("b", ⟨"member", 0⟩)]

/-- A room history of 21 messages with strictly increasing timestamps. -/
def hist21 : List Msg :=
  (List.range 21).map (fun i => ⟨toString i, "u", some i, "", "TEXT", ""⟩)

/-- A room history of 25 messages with strictly increasing timestamps. -/
def hist25 : List Msg :=
  (List.range 25).map (fun i => ⟨toString i, "u", some i, "", "TEXT", ""⟩)

/-! ## List helper lemmas -/

/-- In a strictly `createdAt`-sorted history, the messages strictly older than
the element at index `k` are exactly the first `k` elements. -/
theorem filter_lt_eq_take (l : List Msg) :
    ∀ (k : Nat) (m : Msg), SortedByCreatedAt l → l[k]? = some m →
      l.filter (fun x => decide (x.ts < m.ts)) = l.take k := by
  induction l with
  | nil => intro k m _ h; simp at h
  | cons a l ih =>
    intro k m hs hk
    rcases List.pairwise_cons.mp hs with ⟨ha, hl⟩
    cases k with
    | zero =>
      simp only [List.getElem?_cons_zero, Option.some.injEq] at hk
      subst hk
      simp only [List.take_zero]
      rw [List.filter_cons, if_neg (by simp)]
      rw [List.filter_eq_nil_iff]
      intro x hx
      have hax := ha x hx
      simp only [decide_eq_true_eq]
      omega
    | succ k =>
      simp only [List.getElem?_cons_succ] at hk
      have hm : m ∈ l := List.getElem?_mem hk
      have ham : a.ts < m.ts := ha m hm
      rw [List.take_succ_cons, List.filter_cons, if_pos (by simpa using ham)]
      rw [ih k m hl hk]

/-- Taking the `n` newest elements of a history (reading a descending query's
snapshot back in ascending order) is dropping all but the last `n`. -/
theorem reverse_take_reverse {α : Type} (l : List α) (n : Nat) :
    (l.reverse.take n).reverse = l.drop (l.length - n) := by
  have h := @List.reverse_take α l.reverse n
  simpa using h

/-- Invariant of the pagination loop: when the documents older than the cursor
are exactly the oldest `k` messages, running the loop returns pages whose
oldest-to-newest concatenation is those `k` messages. -/
theorem fetchPagesAux_join (hist : List Msg) (n : Nat)
    (hs : SortedByCreatedAt hist) (hn : 0 < n) :
    ∀ (fuel k : Nat) (cursor : Option Msg), k ≤ hist.length → k < fuel →
      fetchQueryBase hist cursor = (hist.take k).reverse →
      ((fetchPagesAux hist n fuel cursor).reverse).flatten = hist.take k := by
  intro fuel
  induction fuel with
  | zero => intro k cursor _ hf _; exact absurd hf (Nat.not_lt_zero k)
  | succ fuel ih =>
    intro k cursor hk hf hbase
    rcases Nat.eq_zero_or_pos k with hk0 | hk0
    · subst hk0
      simp only [List.take_zero, List.reverse_nil] at hbase
      simp [fetchPagesAux, fetchStep, fetchQuery, hbase]
    · have hR : (hist.take k).length = k := by
        rw [List.length_take]
        exact Nat.min_eq_left hk
      have hdocs : fetchQuery hist cursor n = ((hist.take k).reverse).take n := by
        rw [fetchQuery, hbase]
      have hpage : (fetchQuery hist cursor n).reverse = (hist.take k).drop (k - n) := by
        rw [hdocs, reverse_take_reverse, hR]
      have hkn : k - n < k := Nat.sub_lt hk0 hn
      have hkh : k - n < hist.length := Nat.lt_of_lt_of_le hkn hk
      have hlast : (fetchQuery hist cursor n).getLast? = hist[k - n]? := by
        rw [List.getLast?_eq_head?_reverse, hpage, List.head?_drop,
          List.getElem?_take]
        simp [hkn]
      have hsome : hist[k - n]? = some hist[k - n] := List.getElem?_eq_getElem hkh
      have hstep : fetchStep hist cursor n =
          some ((hist.take k).drop (k - n), hist[k - n]) := by
        rw [fetchStep]
        simp only [hlast, hsome, hpage]
      have hbase2 : fetchQueryBase hist (some hist[k - n]) =
          (hist.take (k - n)).reverse := by
        rw [fetchQueryBase, List.filter_reverse,
          filter_lt_eq_take hist (k - n) hist[k - n] hs hsome]
      have ihr := ih (k - n) (some hist[k - n]) (Nat.le_of_lt hkh)
        (Nat.lt_of_lt_of_le hkn (Nat.lt_succ_iff.mp hf)) hbase2
      calc ((fetchPagesAux hist n (fuel + 1) cursor).reverse).flatten
          = (((hist.take k).drop (k - n) ::
              fetchPagesAux hist n fuel (some hist[k - n])).reverse).flatten := by
            rw [fetchPagesAux, hstep]
        _ = hist.take (k - n) ++ (hist.take k).drop (k - n) := by
            simp only [List.reverse_cons, List.flatten_append, ihr,
              List.flatten_cons, List.flatten_nil, List.append_nil]
        _ = (hist.take k).take (k - n) ++ (hist.take k).drop (k - n) := by
            rw [List.take_take, Nat.min_eq_left (Nat.le_of_lt hkn)]
        _ = hist.take k := List.take_append_drop _ _

/-- Claim C2: the backward-pagination pages — first call with no cursor
returning the newest `n` messages presented oldest-first, each later call
cursored on the previous page's oldest message, stopping at an empty page —
concatenated oldest-to-newest reconstruct exactly the room's history in
`createdAt` order (hence with no duplicates and no gaps). -/
theorem fetchPages_reconstruct (hist : List Msg) (n : Nat)
    (hs : SortedByCreatedAt hist) (hn : 0 < n) :
    ((fetchPages hist n).reverse).flatten = hist := by
  have h := fetchPagesAux_join hist n hs hn (hist.length + 1) hist.length none
    (Nat.le_refl _) (Nat.lt_succ_self _) (by simp [fetchQueryBase])
  simpa [fetchPages] using h

/-- Witness for C2 at the spec's own example: 25 messages, page size 20; the
concatenated pages rebuild the history, the first page is the 20 newest in
ascending order, the second the remaining 5, and the loop stops there. -/
theorem fetchPages_reconstruct_witness :
    SortedByCreatedAt hist25 ∧ 0 < 20 ∧
      ((fetchPages hist25 20).reverse).flatten = hist25 :=
  ⟨by decide, by decide, fetchPages_reconstruct hist25 20 (by decide) (by decide)⟩

/-! ## Rendered-container lemmas -/

theorem isSome_of_not_isNone {α : Type} (o : Option α) (h : ¬ o.isNone = true) :
    o.isSome = true := by
  cases o <;> simp_all

theorem isNone_eq_false_of_isSome {α : Type} (o : Option α) (h : o.isSome = true) :
    o.isNone = false := by
  cases o <;> simp_all

theorem hasMsg_iff (r : List Msg) (i : String) :
    hasMsg r i = true ↔ i ∈ ids r := by
  simp [hasMsg, ids]

theorem ids_append (r s : List Msg) : ids (r ++ s) = ids r ++ ids s :=
  List.map_append _ _ _

theorem nodup_ids_append_single (r : List Msg) (msg : Msg)
    (hnd : (ids r).Nodup) (hni : msg.id ∉ ids r) : (ids (r ++ [msg])).Nodup := by
  rw [ids_append]
  refine List.nodup_append.mpr ⟨hnd, List.nodup_singleton _, ?_⟩
  intro a ha hb
  simp only [ids, List.map_cons, List.map_nil, List.mem_singleton] at hb
  subst hb
  exact hni ha

theorem mem_ids_append_single (r : List Msg) (msg : Msg) (i : String) :
    i ∈ ids (r ++ [msg]) ↔ i ∈ ids r ∨ i = msg.id := by
  rw [ids_append]
  simp [ids, eq_comm]

/-- Rewriting an already-rendered id's element in place does not change the id
sequence of the container. -/
theorem ids_map_replace (r : List Msg) (msg : Msg) :
    ids (r.map fun m => if m.id == msg.id then msg else m) = ids r := by
  unfold ids
  rw [List.map_map]
  apply List.map_congr_left
  intro m _
  by_cases hmid : m.id == msg.id
  · have : m.id = msg.id := by simpa using hmid
    simp [Function.comp, hmid, this]
  · simp [Function.comp, hmid]

theorem prependMessages_nil (r : List Msg) : prependMessages r [] = r := rfl

theorem prependMessages_cons (r : List Msg) (msg : Msg) (msgs : List Msg) :
    prependMessages r (msg :: msgs) =
      prependMessages
        (if hasMsg r msg.id || msg.createdAt.isNone then r else r ++ [msg]) msgs := rfl

/-- The dedup/coverage behaviour of a whole `prependMessages` call: the id
sequence stays duplicate-free and ends up covering exactly the old ids plus
the page's timestamped ids. -/
theorem prependMessages_ids (msgs : List Msg) :
    ∀ r : List Msg,
      ((ids r).Nodup → (ids (prependMessages r msgs)).Nodup)
      ∧ ∀ i, i ∈ ids (prependMessages r msgs) ↔
          i ∈ ids r ∨ ∃ m ∈ msgs, m.createdAt.isSome = true ∧ m.id = i := by
  induction msgs with
  | nil =>
    intro r
    refine ⟨fun h => by simpa [prependMessages_nil] using h, fun i => ?_⟩
    simp [prependMessages_nil]
  | cons msg msgs ih =>
    intro r
    rw [prependMessages_cons]
    by_cases h1 : hasMsg r msg.id = true
    · rw [if_pos (by simp [h1])]
      rcases ih r with ⟨ihn, ihm⟩
      refine ⟨ihn, fun i => ?_⟩
      rw [ihm i]
      constructor
      · rintro (hi | ⟨m, hm, hsome, hid⟩)
        · exact Or.inl hi
        · exact Or.inr ⟨m, List.mem_cons_of_mem _ hm, hsome, hid⟩
      · rintro (hi | ⟨m, hm, hsome, hid⟩)
        · exact Or.inl hi
        · rcases List.mem_cons.mp hm with rfl | hm2
          · subst hid
            exact Or.inl ((hasMsg_iff r m.id).mp h1)
          · exact Or.inr ⟨m, hm2, hsome, hid⟩
    · by_cases h2 : msg.createdAt.isNone = true
      · rw [if_pos (by simp [h2])]
        rcases ih r with ⟨ihn, ihm⟩
        refine ⟨ihn, fun i => ?_⟩
        rw [ihm i]
        constructor
        · rintro (hi | ⟨m, hm, hsome, hid⟩)
          · exact Or.inl hi
          · exact Or.inr ⟨m, List.mem_cons_of_mem _ hm, hsome, hid⟩
        · rintro (hi | ⟨m, hm, hsome, hid⟩)
          · exact Or.inl hi
          · rcases List.mem_cons.mp hm with rfl | hm2
            · rw [isNone_eq_false_of_isSome _ hsome] at h2
              exact absurd h2 (by simp)
            · exact Or.inr ⟨m, hm2, hsome, hid⟩
      · rw [if_neg (by simp [h1, h2])]
        rcases ih (r ++ [msg]) with ⟨ihn, ihm⟩
        have hni : msg.id ∉ ids r := fun hmem => h1 ((hasMsg_iff r msg.id).mpr hmem)
        have hsome : msg.createdAt.isSome = true := isSome_of_not_isNone _ h2
        refine ⟨fun hnd => ihn (nodup_ids_append_single r msg hnd hni), fun i => ?_⟩
        rw [ihm i]
        rw [mem_ids_append_single]
        constructor
        · rintro ((hi | hid) | ⟨m, hm, hs, hid⟩)
          · exact Or.inl hi
          · exact Or.inr ⟨msg, List.mem_cons_self _ _, hsome, hid.symm⟩
          · exact Or.inr ⟨m, List.mem_cons_of_mem _ hm, hs, hid⟩
        · rintro (hi | ⟨m, hm, hs, hid⟩)
          · exact Or.inl (Or.inl hi)
          · rcases List.mem_cons.mp hm with rfl | hm2
            · exact Or.inl (Or.inr hid.symm)
            · exact Or.inr ⟨m, hm2, hs, hid⟩

/-- The dedup/coverage behaviour of one live document change. -/
theorem applyChange_ids (r : List Msg) (msg : Msg) :
    ((ids r).Nodup → (ids (applyChange r msg)).Nodup)
    ∧ ∀ i, i ∈ ids (applyChange r msg) ↔
        i ∈ ids r ∨ (msg.createdAt.isSome = true ∧ i = msg.id) := by
  unfold applyChange
  by_cases h0 : msg.createdAt.isNone = true
  · rw [if_pos h0]
    have hs : msg.createdAt.isSome = false := by
      cases h : msg.createdAt <;> simp_all
    refine ⟨id, fun i => ?_⟩
    simp [hs]
  · have h0s : msg.createdAt.isSome = true := isSome_of_not_isNone _ h0
    rw [if_neg h0]
    by_cases h1 : hasMsg r msg.id = true
    · rw [if_pos h1]
      rw [ids_map_replace]
      refine ⟨id, fun i => ?_⟩
      constructor
      · exact Or.inl
      · rintro (hi | ⟨_, rfl⟩)
        · exact hi
        · exact (hasMsg_iff r msg.id).mp h1
    · rw [if_neg h1]
      have hni : msg.id ∉ ids r := fun hmem => h1 ((hasMsg_iff r msg.id).mpr hmem)
      refine ⟨fun hnd => nodup_ids_append_single r msg hnd hni, fun i => ?_⟩
      rw [mem_ids_append_single]
      constructor
      · rintro (hi | hid)
        · exact Or.inl hi
        · exact Or.inr ⟨h0s, hid⟩
      · rintro (hi | ⟨_, hid⟩)
        · exact Or.inl hi
        · exact Or.inr hid

/-- Folding any interleaving of pages and live changes over a container keeps
ids duplicate-free and accumulates exactly the delivered ids. -/
theorem runEventsAux (evs : List MergeEvent) :
    ∀ r : List Msg,
      ((ids r).Nodup → (ids (evs.foldl applyEvent r)).Nodup)
      ∧ ∀ i, i ∈ ids (evs.foldl applyEvent r) ↔ i ∈ ids r ∨ i ∈ deliveredIds evs := by
  induction evs with
  | nil =>
    intro r
    exact ⟨id, fun i => by simp [deliveredIds]⟩
  | cons ev evs ih =>
    intro r
    rw [List.foldl_cons]
    rcases ih (applyEvent r ev) with ⟨ihn, ihm⟩
    cases ev with
    | page msgs =>
      rcases prependMessages_ids msgs r with ⟨pn, pm⟩
      refine ⟨fun h => ihn (pn h), fun i => ?_⟩
      rw [ihm i]
      simp only [applyEvent]
      rw [pm i]
      have hde : deliveredIds (MergeEvent.page msgs :: evs) =
          (msgs.filter (fun m => m.createdAt.isSome)).map (·.id) ++ deliveredIds evs := rfl
      rw [hde, List.mem_append]
      have hpg : i ∈ (msgs.filter (fun m => m.createdAt.isSome)).map (·.id) ↔
          ∃ m ∈ msgs, m.createdAt.isSome = true ∧ m.id = i := by
        constructor
        · intro h
          rcases List.mem_map.mp h with ⟨m, hm, hid⟩
          rcases List.mem_filter.mp hm with ⟨hm2, hsome⟩
          exact ⟨m, hm2, hsome, hid⟩
        · rintro ⟨m, hm, hsome, hid⟩
          exact List.mem_map.mpr ⟨m, List.mem_filter.mpr ⟨hm, hsome⟩, hid⟩
      rw [hpg]
      exact or_assoc
    | live msg =>
      rcases applyChange_ids r msg with ⟨cn, cm⟩
      refine ⟨fun h => ihn (cn h), fun i => ?_⟩
      rw [ihm i]
      simp only [applyEvent]
      rw [cm i]
      by_cases hs : msg.createdAt.isSome = true
      · have hde : deliveredIds (MergeEvent.live msg :: evs) =
            msg.id :: deliveredIds evs := by
          simp [deliveredIds, hs]
        have hconj : (msg.createdAt.isSome = true ∧ i = msg.id) ↔ i = msg.id := by
          simp [hs]
        rw [hde, List.mem_cons, hconj]
        exact or_assoc
      · have hsf : msg.createdAt.isSome = false := by simpa using hs
        have hde : deliveredIds (MergeEvent.live msg :: evs) = deliveredIds evs := by
          simp [deliveredIds, hsf]
        have hconj : (msg.createdAt.isSome = true ∧ i = msg.id) ↔ False := by
          simp [hsf]
        rw [hde, hconj, or_false]

/-- Claim C1 (amended): for every interleaving of page completions and live
deliveries, the merged container holds each delivered (timestamped) message id
exactly once — its id sequence is duplicate-free and its id set equals the set
of delivered ids.  The sequence is in arrival order, which need not equal
`createdAt` order (see the counterexample). -/
theorem runEvents_dedup_coverage (evs : List MergeEvent) :
    (ids (runEvents evs)).Nodup
    ∧ ∀ i, i ∈ ids (runEvents evs) ↔ i ∈ deliveredIds evs := by
  rcases runEventsAux evs [] with ⟨hn, hm⟩
  refine ⟨hn (by simp [ids]), fun i => ?_⟩
  rw [runEvents, hm i]
  simp [ids]

/-- Witness for the amended C1 on a concrete interleaving: a live delivery
followed by a page redelivering the same id keeps exactly one entry. -/
theorem runEvents_dedup_coverage_witness :
    (ids (runEvents [MergeEvent.live msgA, MergeEvent.page [msgA, msgB]])).Nodup :=
  (runEvents_dedup_coverage [MergeEvent.live msgA, MergeEvent.page [msgA, msgB]]).1

set_option maxRecDepth 8192 in
/-- Claim C1 fails as stated: on a 21-message room, chat.js's own startup
sequence — the first page (newest 20, oldest-first) rendered by
`prependMessages`, then the live-tail's initial snapshot delivering the whole
history in ascending order — renders the overflow message (the oldest) at the
bottom, because both streams append; the rendered id order differs from the
authoritative `createdAt` order. -/
theorem merged_order_counterexample :
    ids (runEvents (MergeEvent.page (firstPage hist21) ::
        (watchInitialAdds hist21).map MergeEvent.live)) ≠ ids hist21 := by
  decide

/-- Claim C5: a delivery whose id is already rendered never inserts a second
entry — the id sequence is unchanged (both for a live `added`/`modified`
change and for a page containing the id), stays duplicate-free, and the
`modified` case rewrites the existing slot's content in place. -/
theorem redelivery_in_place (r : List Msg) (msg : Msg)
    (hnd : (ids r).Nodup) (hmem : msg.id ∈ ids r) :
    ids (applyChange r msg) = ids r
    ∧ ids (prependMessages r [msg]) = ids r
    ∧ (ids (applyChange r msg)).Nodup
    ∧ (msg.createdAt.isSome = true → findById (applyChange r msg) msg.id = some msg) := by
  have h1 : hasMsg r msg.id = true := (hasMsg_iff r msg.id).mpr hmem
  have hch : ids (applyChange r msg) = ids r := by
    unfold applyChange
    by_cases h0 : msg.createdAt.isNone = true
    · rw [if_pos h0]
    · rw [if_neg h0, if_pos h1, ids_map_replace]
  have hpp : ids (prependMessages r [msg]) = ids r := by
    rw [prependMessages_cons, if_pos (by simp [h1]), prependMessages_nil]
  refine ⟨hch, hpp, by rw [hch]; exact hnd, fun hsome => ?_⟩
  unfold applyChange
  rw [if_neg (by simp [isNone_eq_false_of_isSome _ hsome]), if_pos h1]
  clear hch hpp hnd h1
  induction r with
  | nil => simp [ids] at hmem
  | cons a r ih =>
    by_cases ha : (a.id == msg.id) = true
    · rw [List.map_cons, if_pos ha, findById]
      exact List.find?_cons_of_pos _ (by simp)
    · have hmem2 : msg.id ∈ ids r := by
        have h := hmem
        simp only [ids, List.map_cons, List.mem_cons] at h
        rcases h with h | h
        · exact absurd h.symm (by simpa using ha)
        · simpa [ids] using h
      rw [List.map_cons, if_neg ha, findById]
      have hstep : List.find? (fun m => m.id == msg.id)
          (a :: List.map (fun m => if (m.id == msg.id) = true then msg else m) r) =
          List.find? (fun m => m.id == msg.id)
            (List.map (fun m => if (m.id == msg.id) = true then msg else m) r) := by
        apply List.find?_cons_of_neg
        exact ha
      rw [hstep]
      exact ih hmem2

/-- Witness for C5: re-delivering id `a` with edited content neither
duplicates the entry nor moves it; the slot holds the new content. -/
theorem redelivery_in_place_witness :
    ids (applyChange [msgA] msgA2) = ids [msgA]
    ∧ findById (applyChange [msgA] msgA2) "a" = some msgA2 := by
  have h := redelivery_in_place [msgA] msgA2 (by decide) (by decide)
  exact ⟨h.1, h.2.2.2 (by decide)⟩

/-- Claim C6: the live tail (full-room query ordered by ascending `createdAt`,
delivered snapshot-then-increments by the dispatcher) delivers every message
with `createdAt` at or after the subscription start, in increasing `createdAt`
order; and the handler appends a not-yet-rendered message identically whoever
its sender is — in particular the subscriber's own messages, with no
special-case local echo. -/
theorem liveTail_delivers_all (histAtStart later : List Msg) (startT : Nat)
    (subscriber : String)
    (h1 : SortedByCreatedAt histAtStart) (h2 : SortedByCreatedAt later)
    (h3 : ∀ a ∈ histAtStart, ∀ b ∈ later, a.ts < b.ts) :
    (∀ m, m ∈ histAtStart ++ later → startT ≤ m.ts →
        m ∈ watchDeliveries histAtStart later)
    ∧ SortedByCreatedAt (watchDeliveries histAtStart later)
    ∧ (∀ (r : List Msg) (m : Msg), m.senderId = subscriber →
        m.createdAt.isSome = true → hasMsg r m.id = false →
        applyChange r m = r ++ [m]) := by
  refine ⟨fun m hm _ => hm, ?_, ?_⟩
  · rw [watchDeliveries]
    exact List.pairwise_append.mpr ⟨h1, h2, h3⟩
  · intro r m _ hsome hhas
    unfold applyChange
    rw [if_neg (by simp [isNone_eq_false_of_isSome _ hsome]), if_neg (by simp [hhas])]

/-- Witness for C6 on a concrete two-message delivery. -/
theorem liveTail_delivers_all_witness :
    SortedByCreatedAt (watchDeliveries [msgA] [msgB])
    ∧ msgB ∈ watchDeliveries [msgA] [msgB] := by
  have h := liveTail_delivers_all [msgA] [msgB] 0 "v" (by decide) (by decide) (by decide)
  exact ⟨h.2.1, h.1 msgB (by decide) (by decide)⟩

/-! ## Keyed-document (upsert) lemmas -/

theorem find?_key_cons {α : Type} (q : String × α) (l : List (String × α)) (k2 : String) :
    List.find? (fun p => p.1 == k2) (q :: l) =
      if (q.1 == k2) = true then some q else List.find? (fun p => p.1 == k2) l := by
  by_cases h : (q.1 == k2) = true
  · rw [if_pos h]
    exact List.find?_cons_of_pos _ h
  · rw [if_neg h]
    exact List.find?_cons_of_neg _ h

theorem mem_upsert_self {α : Type} (l : List (String × α)) (k : String) (v : α) :
    (k, v) ∈ upsert l k v := by
  unfold upsert
  by_cases h : l.any (fun p => p.1 == k) = true
  · rw [if_pos h]
    rcases List.any_eq_true.mp h with ⟨q, hq, hqk⟩
    refine List.mem_map.mpr ⟨q, hq, ?_⟩
    rw [if_pos hqk]
  · rw [if_neg h]
    exact List.mem_append_right _ (List.mem_singleton_self _)

theorem upsert_key_val {α : Type} (l : List (String × α)) (k : String) (v : α) :
    ∀ p ∈ upsert l k v, p.1 = k → p = (k, v) := by
  unfold upsert
  by_cases h : l.any (fun p => p.1 == k) = true
  · rw [if_pos h]
    intro p hp hpk
    rcases List.mem_map.mp hp with ⟨q, hq, hfq⟩
    by_cases hqk : (q.1 == k) = true
    · rw [if_pos hqk] at hfq
      exact hfq.symm
    · rw [if_neg hqk] at hfq
      subst hfq
      exact absurd (by simpa using hpk) hqk
  · rw [if_neg h]
    intro p hp hpk
    rcases List.mem_append.mp hp with hp2 | hp2
    · exact absurd (List.any_eq_true.mpr ⟨p, hp2, by simpa using hpk⟩) h
    · simpa using hp2

theorem lookupKey_upsert_self {α : Type} (l : List (String × α)) (k : String) (v : α) :
    lookupKey (upsert l k v) k = some v := by
  unfold lookupKey
  cases hf : (upsert l k v).find? (fun p => p.1 == k) with
  | none =>
    exfalso
    have hmem := List.find?_eq_none.mp hf (k, v) (mem_upsert_self l k v)
    simp at hmem
  | some p =>
    have hp0 := List.find?_some hf
    have hp1 : p.1 = k := by simpa using hp0
    have hpm : p ∈ upsert l k v := List.mem_of_find?_eq_some hf
    have hpe := upsert_key_val l k v p hpm hp1
    rw [hpe]
    rfl

theorem lookupKey_upsert_ne {α : Type} (l : List (String × α)) (k k2 : String) (v : α)
    (hne : k2 ≠ k) : lookupKey (upsert l k v) k2 = lookupKey l k2 := by
  have hkk : ((k, v).1 == k2) = false := beq_eq_false_iff_ne.mpr (Ne.symm hne)
  unfold lookupKey upsert
  by_cases h : l.any (fun p => p.1 == k) = true
  · rw [if_pos h]
    congr 1
    clear h
    induction l with
    | nil => rfl
    | cons q l ihl =>
      rw [List.map_cons, find?_key_cons, find?_key_cons]
      by_cases hqk : (q.1 == k) = true
      · rw [if_pos hqk]
        have hq2 : ¬ (q.1 == k2) = true := by
          have hq1 : q.1 = k := by simpa using hqk
          rw [hq1]
          simpa using hkk
        rw [if_neg (by simpa using hkk), if_neg hq2]
        exact ihl
      · rw [if_neg hqk]
        by_cases hq2 : (q.1 == k2) = true
        · rw [if_pos hq2, if_pos hq2]
        · rw [if_neg hq2, if_neg hq2]
          exact ihl
  · rw [if_neg h]
    congr 1
    clear h
    induction l with
    | nil =>
      rw [List.nil_append, find?_key_cons, if_neg (by simpa using hkk)]
    | cons q l ihl =>
      rw [List.cons_append, find?_key_cons, find?_key_cons]
      by_cases hq2 : (q.1 == k2) = true
      · rw [if_pos hq2, if_pos hq2]
      · rw [if_neg hq2, if_neg hq2]
        exact ihl

theorem keys_upsert_nodup {α : Type} (l : List (String × α)) (k : String) (v : α)
    (h : (l.map Prod.fst).Nodup) : ((upsert l k v).map Prod.fst).Nodup := by
  unfold upsert
  by_cases ha : l.any (fun p => p.1 == k) = true
  · rw [if_pos ha]
    have hkeys : (l.map (fun p => if (p.1 == k) = true then (k, v) else p)).map Prod.fst =
        l.map Prod.fst := by
      rw [List.map_map]
      apply List.map_congr_left
      intro p _
      by_cases hpk : (p.1 == k) = true
      · have hp1 : p.1 = k := by simpa using hpk
        simp [Function.comp, hpk, hp1]
      · simp [Function.comp, hpk]
    rw [hkeys]
    exact h
  · rw [if_neg ha, List.map_append]
    refine List.Nodup.append h (by simp) ?_
    intro x hx hy
    simp only [List.map_cons, List.map_nil, List.mem_singleton] at hy
    subst hy
    rcases List.mem_map.mp hx with ⟨p, hp, hpk⟩
    exact ha (List.any_eq_true.mpr ⟨p, hp, by simp [hpk]⟩)

/-! ## Room-creation lemmas -/

theorem foldl_member_writes (cur : String) (t : Nat) :
    ∀ (uids : List String) (ro : Option RoomDoc) (ms : Members),
      List.foldl applyWrite ⟨ro, ms⟩
          (uids.map (fun uid => BatchWrite.setMember uid (memberDocFor cur t uid))) =
        ⟨ro, uids.foldl (fun acc uid => upsert acc uid (memberDocFor cur t uid)) ms⟩ := by
  intro uids
  induction uids with
  | nil => intro ro ms; rfl
  | cons u us ih =>
    intro ro ms
    rw [List.map_cons, List.foldl_cons, List.foldl_cons]
    exact ih ro (upsert ms u (memberDocFor cur t u))

theorem foldl_upsert_lookup (cur : String) (t : Nat) :
    ∀ (uids : List String) (ms : Members) (uid : String),
      (uid ∈ uids →
        lookupKey (uids.foldl (fun acc u => upsert acc u (memberDocFor cur t u)) ms) uid =
          some (memberDocFor cur t uid))
      ∧ (uid ∉ uids →
        lookupKey (uids.foldl (fun acc u => upsert acc u (memberDocFor cur t u)) ms) uid =
          lookupKey ms uid) := by
  intro uids
  induction uids with
  | nil =>
    intro ms uid
    exact ⟨fun h => absurd h (List.not_mem_nil _), fun _ => rfl⟩
  | cons u us ih =>
    intro ms uid
    rw [List.foldl_cons]
    rcases ih (upsert ms u (memberDocFor cur t u)) uid with ⟨ih1, ih2⟩
    constructor
    · intro hmem
      by_cases hu : uid ∈ us
      · exact ih1 hu
      · have he : uid = u := by
          rcases List.mem_cons.mp hmem with h | h
          · exact h
          · exact absurd h hu
        subst he
        rw [ih2 hu, lookupKey_upsert_self]
    · intro hmem
      have hu : uid ∉ us := fun h => hmem (List.mem_cons_of_mem _ h)
      have hne : uid ≠ u := fun h => hmem (h ▸ List.mem_cons_self _ _)
      rw [ih2 hu, lookupKey_upsert_ne _ _ _ _ hne]

theorem foldl_upsert_keys_nodup (cur : String) (t : Nat) :
    ∀ (uids : List String) (ms : Members),
      (ms.map Prod.fst).Nodup →
      ((uids.foldl (fun acc u => upsert acc u (memberDocFor cur t u)) ms).map Prod.fst).Nodup := by
  intro uids
  induction uids with
  | nil => intro ms h; exact h
  | cons u us ih =>
    intro ms h
    rw [List.foldl_cons]
    exact ih _ (keys_upsert_nodup ms u _ h)

theorem createRoom_unfold (title cur : String) (memberIds : List String) (t : Nat) :
    createRoom title cur memberIds t =
      ⟨some ⟨title, "group", cur, t⟩,
        memberIds.foldl (fun acc uid => upsert acc uid (memberDocFor cur t uid)) []⟩ := by
  rw [createRoom, createRoomBatch, commitBatch, List.foldl_cons]
  exact foldl_member_writes cur t memberIds (some ⟨title, "group", cur, t⟩) []

/-- Claim C4 (amended): `createRoom` commits, in one atomic batch, the room
document and exactly one membership per distinct element of `memberIds` — each
with role `admin` iff it equals the creator, `member` otherwise, and no other
membership.  A membership for the creator therefore exists only when
`creatorId` appears in `memberIds`; it is not forced in. -/
theorem createRoom_spec (title cur : String) (memberIds : List String) (t : Nat) :
    (createRoom title cur memberIds t).room = some ⟨title, "group", cur, t⟩
    ∧ (∀ uid ∈ memberIds,
        lookupKey (createRoom title cur memberIds t).members uid =
          some (memberDocFor cur t uid))
    ∧ (∀ uid, uid ∉ memberIds →
        lookupKey (createRoom title cur memberIds t).members uid = none)
    ∧ ((createRoom title cur memberIds t).members.map Prod.fst).Nodup := by
  rw [createRoom_unfold]
  refine ⟨rfl, ?_, ?_, ?_⟩
  · intro uid hmem
    exact (foldl_upsert_lookup cur t memberIds [] uid).1 hmem
  · intro uid hmem
    rw [(foldl_upsert_lookup cur t memberIds [] uid).2 hmem]
    rfl
  · exact foldl_upsert_keys_nodup cur t memberIds [] (by simp)

/-- Claim C4 fails as stated: when the creator is not among `memberIds`,
`createRoom` creates no membership for the creator at all — in particular no
admin membership. -/
theorem createRoom_creator_counterexample :
    lookupKey (createRoom "t" "creator" ["bob"] 0).members "creator" = none := by
  decide

/-- Witness for the amended C4 on a concrete call: the creator (listed) gets
role admin, the other member gets role member. -/
theorem createRoom_spec_witness :
    lookupKey (createRoom "t" "c" ["c", "b"] 0).members "c" = some ⟨"admin", 0⟩
    ∧ lookupKey (createRoom "t" "c" ["c", "b"] 0).members "b" = some ⟨"member", 0⟩ := by
  have h := createRoom_spec "t" "c" ["c", "b"] 0
  have h1 := h.2.1 "c" (by decide)
  have h2 := h.2.1 "b" (by decide)
  have e1 : memberDocFor "c" 0 "c" = (⟨"admin", 0⟩ : MemberDoc) := by decide
  have e2 : memberDocFor "c" 0 "b" = (⟨"member", 0⟩ : MemberDoc) := by decide
  rw [e1] at h1
  rw [e2] at h2
  exact ⟨h1, h2⟩

/-! ## Last-admin-guard lemmas -/

theorem find?_eq_of_nodup_mem (ms : Members) (p : String × MemberDoc)
    (hnd : (ms.map Prod.fst).Nodup) (hp : p ∈ ms) :
    ms.find? (fun q => q.1 == p.1) = some p := by
  induction ms with
  | nil => simp at hp
  | cons a ms ih =>
    have hnd1 : (a.1 :: ms.map Prod.fst).Nodup := by
      simpa only [List.map_cons] using hnd
    rcases List.nodup_cons.mp hnd1 with ⟨hak, hnd2⟩
    rw [find?_key_cons]
    by_cases ha : (a.1 == p.1) = true
    · rw [if_pos ha]
      rcases List.mem_cons.mp hp with h | h
      · rw [h]
      · exfalso
        apply hak
        rw [(by simpa using ha : a.1 = p.1)]
        exact List.mem_map.mpr ⟨p, h, rfl⟩
    · rw [if_neg ha]
      rcases List.mem_cons.mp hp with h | h
      · exact absurd (by rw [h]; simp) ha
      · exact ih hnd2 h

theorem roomAdmins_remove_of_not_admin (ms : Members) (uid : String)
    (h : ∀ p ∈ ms, p.1 = uid → ¬ p.2.role = "admin") :
    roomAdmins (ms.filter (fun p => !(p.1 == uid))) = roomAdmins ms := by
  unfold roomAdmins
  congr 1
  rw [List.filter_filter]
  apply List.filter_congr
  intro p hp
  by_cases hk : (p.1 == uid) = true
  · have hadm : (p.2.role == "admin") = false :=
      beq_eq_false_iff_ne.mpr (h p hp (by simpa using hk))
    simp [hadm, hk]
  · simp [hk]

theorem roomAdmins_filter_ne (ms : Members) (uid : String) :
    roomAdmins (ms.filter (fun p => !(p.1 == uid))) =
      (roomAdmins ms).filter (fun x => !(x == uid)) := by
  unfold roomAdmins
  rw [List.filter_filter, List.map_filter, List.filter_filter]
  congr 1
  apply List.filter_congr
  intro p _
  simp [Function.comp, Bool.and_comm]

theorem roomAdmins_nodup (ms : Members) (hnd : (ms.map Prod.fst).Nodup) :
    (roomAdmins ms).Nodup := by
  unfold roomAdmins
  exact ((List.filter_sublist ms).map Prod.fst).nodup hnd

theorem length_filter_ne_ge (l : List String) (x : String) (hnd : l.Nodup) :
    l.length - 1 ≤ (l.filter (fun y => !(y == x))).length := by
  induction l with
  | nil => simp
  | cons a l ih =>
    rcases List.nodup_cons.mp hnd with ⟨hal, hnd2⟩
    rw [List.filter_cons]
    by_cases hax : (a == x) = true
    · have hae : a = x := by simpa using hax
      rw [if_neg (by simp [hax])]
      have hfull : l.filter (fun y => !(y == x)) = l := by
        rw [List.filter_eq_self]
        intro b hb
        have : b ≠ x := fun he => hal (by rw [hae, ← he]; exact hb)
        simp [this]
      rw [hfull]
      simp
    · rw [if_pos (by simp [hax])]
      have := ih hnd2
      simp only [List.length_cons]
      omega

/-- Claim C3 (amended): `attemptRemoveMember` preserves the at-least-one-admin
property — starting from a state with an admin it never produces a state with
none, and whenever the last-admin guard fires (the target is an admin and the
admin set has at most one element) the membership state is returned unchanged.
The invariant does not hold of every reachable state, because `createRoom`
creates no admin when the creator is absent from `memberIds` (see the
counterexample), and no role-change operation exists in the scripts. -/
theorem removeMember_preserves_admins (ms : Members) (cu uid : String) (c : Bool)
    (hnd : (ms.map Prod.fst).Nodup) :
    (1 ≤ (roomAdmins ms).length →
      1 ≤ (roomAdmins (attemptRemoveMember ms cu uid c)).length)
    ∧ (lastAdminGuard ms uid = true → attemptRemoveMember ms cu uid c = ms) := by
  constructor
  · intro h1
    unfold attemptRemoveMember
    split_ifs with g1 g2 g3 g4
    · exact h1
    · exact h1
    · exact h1
    · exact h1
    · by_cases hadm : memberRole ms uid = some "admin"
      · have hcnt : 2 ≤ (roomAdmins ms).length := by
          by_contra hc
          apply g3
          unfold lastAdminGuard
          rw [hadm]
          simp only [beq_self_eq_true, Bool.true_and, decide_eq_true_eq]
          omega
        rw [roomAdmins_filter_ne]
        have hge := length_filter_ne_ge (roomAdmins ms) uid (roomAdmins_nodup ms hnd)
        omega
      · have hall : ∀ p ∈ ms, p.1 = uid → ¬ p.2.role = "admin" := by
          intro p hp hpk hrole
          apply hadm
          unfold memberRole lookupKey
          rw [← hpk, find?_eq_of_nodup_mem ms p hnd hp]
          simp [hrole]
        rw [roomAdmins_remove_of_not_admin ms uid hall]
        exact h1
  · intro hg
    unfold attemptRemoveMember
    split_ifs <;> rfl

/-- Claim C3 fails as stated: the state reached by
`createRoom("t", creator := "alice", memberIds := ["bob"])` has a membership
set with zero admins, so not every reachable state keeps an admin. -/
theorem admin_invariant_counterexample :
    ReachableMembers [("bob", ⟨"member", 0⟩)]
    ∧ roomAdmins [("bob", ⟨"member", 0⟩)] = [] := by
  constructor
  · have h := ReachableMembers.created "t" "alice" ["bob"] 0
    have e : (createRoom "t" "alice" ["bob"] 0).members =
        [("bob", (⟨"member", 0⟩ : MemberDoc))] := by decide
    rw [e] at h
    exact h
  · decide

/-- Witness for the amended C3: removing the non-admin keeps an admin, and
removing the lone admin is refused unchanged. -/
theorem removeMember_preserves_admins_witness :
    1 ≤ (roomAdmins (attemptRemoveMember msTwo "a" "b" true)).length
    ∧ attemptRemoveMember [("a", MemberDoc.mk "admin" 0)] "a" "a" true =
        [("a", MemberDoc.mk "admin" 0)] := by
  have h := removeMember_preserves_admins msTwo "a" "b" true (by decide)
  have h2 := removeMember_preserves_admins [("a", MemberDoc.mk "admin" 0)] "a" "a" true
    (by decide)
  exact ⟨h.1 (by decide), h2.2 (by decide)⟩

/-! ## Sending, unread counts, typing, escaping -/

set_option maxRecDepth 8192 in
/-- Claim C7 fails as stated: `sendMessage` itself never checks the
300-character cap (only `updateSendButtonState` does, and the Enter-key path
calls `sendMessage` directly), so a 301-character text is written as a message
record instead of failing with a validation error. -/
theorem sendMessage_length_counterexample :
    (sendMessage ⟨[], longText, false⟩ "u" "m1" 5).messages =
      [⟨"m1", "u", some 5, longText, "TEXT", ""⟩]
    ∧ 300 < (jsTrim longText).length := by
  constructor
  · rfl
  · decide

/-- Claim C7 (amended): `sendMessage` rejects input that is empty after
trimming, or re-entry while a send is in flight, without touching any state;
the 300-character cap is enforced only by disabling the send button
(`updateSendButtonState`), which also disables on empty-after-trim input —
`sendMessage` itself performs no length check. -/
theorem sendMessage_validation (st : SendState) (senderId newId : String) (now : Nat)
    (v : String) (b : Bool) :
    ((jsTrim st.inputValue).isEmpty = true → sendMessage st senderId newId now = st)
    ∧ (st.isSending = true → sendMessage st senderId newId now = st)
    ∧ (300 < (jsTrim v).length → sendButtonDisabled v b = true)
    ∧ ((jsTrim v).isEmpty = true → sendButtonDisabled v b = true) := by
  refine ⟨fun he => ?_, fun hs => ?_, fun hl => ?_, fun he => ?_⟩
  · rw [sendMessage, if_pos (by simp [he])]
  · rw [sendMessage, if_pos (by simp [hs])]
  · have hd : decide ((jsTrim v).length > 300) = true := by simpa using hl
    rw [sendButtonDisabled, hd]
    simp
  · rw [sendButtonDisabled, he]
    simp

set_option maxRecDepth 8192 in
/-- Witness for the amended C7: whitespace-only input is dropped without a
write, and the button is disabled for the 301-character text. -/
theorem sendMessage_validation_witness :
    sendMessage ⟨[], "   ", false⟩ "u" "m1" 5 = ⟨[], "   ", false⟩
    ∧ sendButtonDisabled longText false = true := by
  have h1 := (sendMessage_validation ⟨[], "   ", false⟩ "u" "m1" 5 "" false).1 (by decide)
  have h2 := (sendMessage_validation ⟨[], "", false⟩ "u" "m1" 5 longText false).2.2.1
    (by decide)
  exact ⟨h1, h2⟩

/-- Claim C8: the unread count equals the number of messages strictly newer
than the read marker, and is zero when no marker exists (no read document, or
one without a `lastReadTimestamp`). -/
theorem unreadCount_spec (msgs : List Msg) (t : Nat) :
    computeUnreadCount msgs (some ⟨some t⟩) = msgs.countP (fun m => decide (t < m.ts))
    ∧ computeUnreadCount msgs none = 0
    ∧ computeUnreadCount msgs (some ⟨none⟩) = 0 := by
  refine ⟨?_, rfl, rfl⟩
  show (unreadQuery msgs t).length = msgs.countP (fun m => decide (t < m.ts))
  rw [unreadQuery, List.countP_eq_length_filter]

/-- Witness for C8 at a concrete state: two of three messages are newer than
the marker; no marker means zero. -/
theorem unreadCount_spec_witness :
    computeUnreadCount [msgA, msgB] (some ⟨some 1⟩) =
      List.countP (fun m => decide (1 < m.ts)) [msgA, msgB]
    ∧ computeUnreadCount [msgA, msgB] none = 0 := by
  have h := unreadCount_spec [msgA, msgB] 1
  exact ⟨h.1, h.2.1⟩

/-- Claim C9 fails as stated: after `setTyping(roomId, u, true)` with no
further writes the typing document stays `isTyping = true` with its old
`updatedAt` forever, and `listenForTypingStatus` never consults `updatedAt` or
the clock — so at every later instant, however far past any staleness window,
`u` is still shown as typing. -/
theorem typing_staleness_counterexample :
    typingUsers (upsert [] "u" ⟨true, 0⟩) "me" = ["u"] := by
  decide

/-- Claim C9 (amended): a subscriber stops showing `u` only when a further
write clears `u`'s `isTyping` flag; the reader itself applies no staleness
window.  The client does schedule such a clearing write: `onInputChange` arms
a timer that writes `isTyping = false` 2000 ms after the last input event, and
once that (or any) `false` write lands, `u` is no longer shown. -/
theorem typing_cleared_only_by_write (snap : TypingSnap) (cur u : String) (t0 : Nat)
    (hne : u ≠ cur) :
    u ∈ typingUsers (upsert snap u ⟨true, t0⟩) cur
    ∧ (∀ t1, u ∉ typingUsers (upsert (upsert snap u ⟨true, t0⟩) u ⟨false, t1⟩) cur)
    ∧ typingClearFireAt t0 = t0 + 2000 := by
  refine ⟨?_, fun t1 hmem => ?_, rfl⟩
  · have hm : ((u, (⟨true, t0⟩ : TypingDoc))) ∈ upsert snap u ⟨true, t0⟩ :=
      mem_upsert_self snap u ⟨true, t0⟩
    refine List.mem_map.mpr ⟨(u, ⟨true, t0⟩), ?_, rfl⟩
    refine List.mem_filter.mpr ⟨hm, ?_⟩
    simp [hne]
  · rcases List.mem_map.mp hmem with ⟨p, hp, hpu⟩
    rcases List.mem_filter.mp hp with ⟨hpm, hpt⟩
    have hpe := upsert_key_val _ u (⟨false, t1⟩ : TypingDoc) p hpm hpu
    rw [hpe] at hpt
    simp at hpt

/-- Witness for the amended C9 at a concrete state. -/
theorem typing_cleared_only_by_write_witness :
    "u" ∈ typingUsers (upsert [] "u" ⟨true, 7⟩) "me"
    ∧ "u" ∉ typingUsers (upsert (upsert [] "u" ⟨true, 7⟩) "u" ⟨false, 9⟩) "me" := by
  have h := typing_cleared_only_by_write [] "me" "u" 7 (by decide)
  exact ⟨h.1, h.2.1 9⟩

/-- Every character produced by `escapeChar` is free of the four raw
markup-breaking metacharacters. -/
theorem escapeChar_safe (c : Char) :
    ∀ c2 ∈ escapeChar c,
      ¬(c2 = '<' ∨ c2 = '>' ∨ c2 = Char.ofNat 34 ∨ c2 = Char.ofNat 39) := by
  unfold escapeChar
  split_ifs with h1 h2 h3 h4 h5
  · decide
  · decide
  · decide
  · decide
  · decide
  · intro c2 hc2
    have hc : c2 = c := by simpa using hc2
    subst hc
    rintro (h | h | h | h)
    · exact h2 h
    · exact h3 h
    · exact h4 h
    · exact h5 h

/-- Claim C10: `escapeHtml` maps each of the five metacharacters to its HTML
entity and leaves every other character unchanged; its output contains no raw
`<`, `>`, `"` or `'`; and `createMessageDiv` renders every (non-image) message
body as a paragraph whose content went through `escapeHtml`, so no raw markup
metacharacter of the user's text reaches the rendered output. -/
theorem escapeHtml_renders_safe (s : String) (mid sender txt url : String)
    (ts0 : Option Nat) :
    (∀ c ∈ (escapeHtml s).data,
        ¬(c = '<' ∨ c = '>' ∨ c = Char.ofNat 34 ∨ c = Char.ofNat 39))
    ∧ contentHtml ⟨mid, sender, ts0, txt, "TEXT", url⟩ = "<p>" ++ escapeHtml txt ++ "</p>"
    ∧ escapeChar '&' = "&amp;".data
    ∧ escapeChar '<' = "&lt;".data
    ∧ escapeChar '>' = "&gt;".data
    ∧ escapeChar (Char.ofNat 34) = "&quot;".data
    ∧ escapeChar (Char.ofNat 39) = "&#39;".data
    ∧ (∀ c, ¬(c = '&' ∨ c = '<' ∨ c = '>' ∨ c = Char.ofNat 34 ∨ c = Char.ofNat 39) →
        escapeChar c = [c]) := by
  refine ⟨?_, ?_, by decide, by decide, by decide, by decide, by decide, ?_⟩
  · intro c hc
    rw [escapeHtml] at hc
    by_cases he : s.isEmpty = true
    · rw [if_pos he] at hc
      simp at hc
    · rw [if_neg he] at hc
      have hc2 : c ∈ List.flatten (s.data.map escapeChar) := hc
      rcases List.mem_flatten.mp hc2 with ⟨cs, hcs, hcc⟩
      rcases List.mem_map.mp hcs with ⟨c0, _, hc0⟩
      subst hc0
      exact escapeChar_safe c0 c hcc
  · rfl
  · intro c hc
    rw [escapeChar]
    rw [if_neg (fun h => hc (Or.inl h)),
      if_neg (fun h => hc (Or.inr (Or.inl h))),
      if_neg (fun h => hc (Or.inr (Or.inr (Or.inl h)))),
      if_neg (fun h => hc (Or.inr (Or.inr (Or.inr (Or.inl h))))),
      if_neg (fun h => hc (Or.inr (Or.inr (Or.inr (Or.inr h)))))]

/-- Witness for C10: the escaped body of a concrete message. -/
theorem escapeHtml_renders_safe_witness :
    contentHtml ⟨"i", "u", some 1, "x&y", "TEXT", ""⟩ =
      "<p>" ++ escapeHtml "x&y" ++ "</p>"
    ∧ escapeHtml "x&y" = "x&amp;y" := by
  have h := (escapeHtml_renders_safe "x&y" "i" "u" "x&y" "" (some 1)).2.1
  exact ⟨h, by decide⟩

end RTChat
